import Mathlib

/-!
Verification of the aggregation core of `pakistan_election_analysis.py`.

The script loads a CSV of per-candidate election rows, cleans them
(trims the party field, drops rows with missing required values) and
derives four summaries:

* `get_party_votes`  — votes summed per party, sorted descending
  (pandas: `df.groupby('candidate_party')['candidate_votes'].sum()
  .sort_values(ascending=False)`; `groupby` orders the group keys
  ascending lexicographically before the value sort);
* `get_pie_data`     — the top `TOP_N_PIE` parties plus an `"Others"`
  bucket holding the sum of the remaining parties;
* `get_party_seats`  — per-party counts of rows whose lower-cased
  outcome is `"win"` (pandas: `value_counts`, which enumerates keys in
  first-seen order and then sorts descending by count);
* `get_top_candidates` — the records sorted descending by votes,
  truncated to `TOP_N_CANDIDATES`.

The script calls `sort_values` with its default `kind='quicksort'`
(numpy introsort), which pandas documents as *not* stable: the order of
equal keys is preserved only while a partition stays within numpy's
16-element insertion-sort cutoff, and no tie order is guaranteed beyond
it.  The executable model `insSort` below is therefore one concrete
refinement of the program's sort: it agrees with the program on the
sort key — hence on every property independent of the order of equal
keys (lengths, memberships, value sums, non-increasing order) — but
fixes a tie order the program does not.  No theorem below reads a tie
order out of the model, with one deliberate exception:
`party_votes_ties_counterexample` evaluates a two-element value sort,
which lies inside the insertion-sort regime where the program's
quicksort is stable and provably produces the same list.  Machine
integers do not overflow here (vote counts are plain Python ints), so
votes are `Nat`.
-/

namespace PakElect

/-- One cleaned row of the election table: all four required fields
present, party already whitespace-trimmed. -/
structure Record where
  candidate_name : String
  candidate_party : String
  candidate_votes : Nat
  outcome : String
  deriving DecidableEq, Repr

/-- `TOP_N_PIE = 6` from the script's constants. -/
def TOP_N_PIE : Nat := 6

/-- `TOP_N_CANDIDATES = 10` from the script's constants. -/
def TOP_N_CANDIDATES : Nat := 10

section StableSort

variable {α : Type*}

/-- Insert `x` into `l`, placing it before the first element `y` with
`le x y`; building block of the model of pandas sorting. -/
def insertOrd (le : α → α → Bool) (x : α) : List α → List α
  | [] => [x]
  | y :: ys => if le x y then x :: y :: ys else y :: insertOrd le x ys

/-- Insertion sort by the boolean comparison `le`: one concrete
refinement of `sort_values`, whose default quicksort fixes no tie
order. -/
def insSort (le : α → α → Bool) : List α → List α
  | [] => []
  | x :: xs => insertOrd le x (insSort le xs)

theorem insertOrd_perm (le : α → α → Bool) (x : α) (l : List α) :
    (insertOrd le x l).Perm (x :: l) := by
  induction l with
  | nil => simp [insertOrd]
  | cons y ys ih =>
    by_cases h : le x y = true
    · simp [insertOrd, h]
    · rw [insertOrd, if_neg h]
      exact (ih.cons y).trans (List.Perm.swap x y ys)

theorem insSort_perm (le : α → α → Bool) (l : List α) :
    (insSort le l).Perm l := by
  induction l with
  | nil => simp [insSort]
  | cons x xs ih =>
    exact (insertOrd_perm le x (insSort le xs)).trans (ih.cons x)

/-- Inserting into a list sorted by `le` (with the stability side
condition recorded through `Q`) keeps it sorted, provided the inserted
element precedes every list element in the original order `Q`. -/
theorem insertOrd_pairwise (le : α → α → Bool) (Q : α → α → Prop)
    (htot : ∀ a b, le a b = true ∨ le b a = true)
    (htr : ∀ a b c, le a b = true → le b c = true → le a c = true) (x : α) :
    ∀ l : List α,
      l.Pairwise (fun a b => le a b = true ∧ (le b a = true → Q a b)) →
      (∀ y ∈ l, Q x y) →
      (insertOrd le x l).Pairwise
        (fun a b => le a b = true ∧ (le b a = true → Q a b)) := by
  intro l
  induction l with
  | nil =>
    intro _ _
    simp [insertOrd]
  | cons y ys ih =>
    intro hl hx
    rcases List.pairwise_cons.mp hl with ⟨hy, hys⟩
    by_cases h : le x y = true
    · rw [insertOrd, if_pos h]
      refine List.pairwise_cons.mpr ⟨?_, hl⟩
      intro z hz
      rcases List.mem_cons.mp hz with rfl | hz'
      · exact ⟨h, fun _ => hx z (List.mem_cons_self z ys)⟩
      · exact ⟨htr x y z h (hy z hz').1,
          fun _ => hx z (List.mem_cons_of_mem y hz')⟩
    · rw [insertOrd, if_neg h]
      refine List.pairwise_cons.mpr
        ⟨?_, ih hys (fun z hz => hx z (List.mem_cons_of_mem y hz))⟩
      intro z hz
      have hz' : z = x ∨ z ∈ ys := by
        simpa using (insertOrd_perm le x ys).mem_iff.mp hz
      rcases hz' with rfl | hz'
      · exact ⟨(htot z y).resolve_left h, fun hzy => absurd hzy h⟩
      · exact hy z hz'

/-- Stable sorting a list that is `Pairwise Q` yields a list sorted by
`le` in which any two elements tied under `le` still satisfy `Q` in
their output order: stability of `insSort`. -/
theorem insSort_pairwise (le : α → α → Bool) (Q : α → α → Prop)
    (htot : ∀ a b, le a b = true ∨ le b a = true)
    (htr : ∀ a b c, le a b = true → le b c = true → le a c = true)
    {l : List α} (hQ : l.Pairwise Q) :
    (insSort le l).Pairwise
      (fun a b => le a b = true ∧ (le b a = true → Q a b)) := by
  induction hQ with
  | nil => simp [insSort]
  | @cons x xs hx hxs ih =>
    exact insertOrd_pairwise le Q htot htr x _ ih
      (fun y hy => hx y ((insSort_perm le xs).mem_iff.mp hy))

/-- Every list is pairwise related by "these two occur in this order",
expressed as a two-element sublist. -/
theorem pairwise_pair_sublist (l : List α) :
    l.Pairwise (fun a b => List.Sublist [a, b] l) := by
  induction l with
  | nil => simp
  | cons x xs ih =>
    refine List.pairwise_cons.mpr ⟨?_, ?_⟩
    · intro y hy
      exact (List.singleton_sublist.mpr hy).cons₂ x
    · exact ih.imp (fun h => h.trans (List.sublist_cons_self x xs))

end StableSort

section FirstSeen

variable {α : Type*} [DecidableEq α]

/-- The distinct elements of `l` in order of first occurrence; models
the key enumeration order of a pandas hash table (`value_counts`). -/
def firstSeen : List α → List α
  | [] => []
  | x :: xs => x :: (firstSeen xs).filter (fun y => y != x)

theorem mem_firstSeen {a : α} : ∀ {l : List α}, a ∈ firstSeen l ↔ a ∈ l
  | [] => Iff.rfl
  | x :: xs => by
    by_cases h : a = x
    · simp [firstSeen, h]
    · simp [firstSeen, h, List.mem_filter, mem_firstSeen (l := xs)]

theorem nodup_firstSeen : ∀ l : List α, (firstSeen l).Nodup
  | [] => List.nodup_nil
  | x :: xs => by
    rw [firstSeen, List.nodup_cons]
    refine ⟨fun hx => ?_, (nodup_firstSeen xs).filter _⟩
    have := (List.mem_filter.mp hx).2
    simp at this

end FirstSeen

section LexOrder

/-- Code-point lexicographic comparison of character lists; this is the
order Python uses when pandas `groupby` sorts string keys. -/
def lexLe : List Char → List Char → Bool
  | [], _ => true
  | _ :: _, [] => false
  | a :: as, b :: bs =>
    if a.toNat < b.toNat then true
    else if b.toNat < a.toNat then false
    else lexLe as bs

/-- Lexicographic comparison of strings by code point. -/
def strLe (s t : String) : Bool := lexLe s.data t.data

theorem lexLe_refl : ∀ l : List Char, lexLe l l = true
  | [] => rfl
  | a :: as => by simp [lexLe, lexLe_refl as]

theorem lexLe_cons_iff {a b : Char} {as bs : List Char} :
    lexLe (a :: as) (b :: bs) = true ↔
      a.toNat < b.toNat ∨ (a.toNat = b.toNat ∧ lexLe as bs = true) := by
  rw [lexLe]
  split_ifs with h1 h2
  · simp
    omega
  · simp
    exact ⟨by omega, fun h => absurd h (by omega)⟩
  · have heq : a.toNat = b.toNat := by omega
    simp [heq, h1]

theorem lexLe_total : ∀ a b : List Char, lexLe a b = true ∨ lexLe b a = true
  | [], _ => Or.inl rfl
  | _ :: _, [] => Or.inr rfl
  | a :: as, b :: bs => by
    rcases Nat.lt_trichotomy a.toNat b.toNat with hc | hc | hc
    · exact Or.inl (lexLe_cons_iff.mpr (Or.inl hc))
    · rcases lexLe_total as bs with h | h
      · exact Or.inl (lexLe_cons_iff.mpr (Or.inr ⟨hc, h⟩))
      · exact Or.inr (lexLe_cons_iff.mpr (Or.inr ⟨hc.symm, h⟩))
    · exact Or.inr (lexLe_cons_iff.mpr (Or.inl hc))

theorem lexLe_trans :
    ∀ a b c : List Char, lexLe a b = true → lexLe b c = true →
      lexLe a c = true
  | [], _, _, _, _ => rfl
  | _ :: _, [], _, h, _ => by simp [lexLe] at h
  | _ :: _, _ :: _, [], _, h => by simp [lexLe] at h
  | a :: as, b :: bs, c :: cs, h1, h2 => by
    rw [lexLe_cons_iff] at h1 h2 ⊢
    rcases h1 with h1 | ⟨h1, h1'⟩ <;> rcases h2 with h2 | ⟨h2, h2'⟩
    · exact Or.inl (by omega)
    · exact Or.inl (by omega)
    · exact Or.inl (by omega)
    · exact Or.inr ⟨by omega, lexLe_trans as bs cs h1' h2'⟩

theorem strLe_refl (s : String) : strLe s s = true := lexLe_refl s.data

theorem strLe_total (s t : String) : strLe s t = true ∨ strLe t s = true :=
  lexLe_total s.data t.data

theorem strLe_trans (s t u : String) :
    strLe s t = true → strLe t u = true → strLe s u = true :=
  lexLe_trans s.data t.data u.data

end LexOrder

section Program

/-- Descending-by-value comparison used to model
`sort_values(ascending=False)` on a key→value series. -/
def valLeDesc (a b : String × Nat) : Bool := decide (b.2 ≤ a.2)

/-- Descending-by-votes comparison used to model
`df.sort_values(by='candidate_votes', ascending=False)`. -/
def recLeDesc (r s : Record) : Bool :=
  decide (s.candidate_votes ≤ r.candidate_votes)

/-- The summed votes of party `p`: the `candidate_votes` column of the
rows whose `candidate_party` equals `p` (case-sensitive, as pandas
`groupby`). -/
def sumVotes (df : List Record) (p : String) : Nat :=
  ((df.filter (fun r => r.candidate_party == p)).map
    (fun r => r.candidate_votes)).sum

/-- `get_party_votes` (line 75):
`df.groupby('candidate_party')['candidate_votes'].sum()
.sort_values(ascending=False)`.  `groupby` enumerates the distinct
party keys sorted ascending lexicographically; each key is mapped to
its group's vote sum; `sort_values` then sorts descending by value.
Its default quicksort guarantees no order among tied values; `insSort`
fixes one, so only tie-order-independent properties of this model
reflect the program. -/
def get_party_votes (df : List Record) : List (String × Nat) :=
  insSort valLeDesc
    ((insSort strLe (firstSeen (df.map (fun r => r.candidate_party)))).map
      (fun p => (p, sumVotes df p)))

/-- `get_pie_data` (line 78): the first `k` entries of the party-vote
series followed by an `"Others"` entry holding the sum of the values of
the remaining entries (`party_votes[k:].sum()`, `0` when empty). -/
def get_pie_data (party_votes : List (String × Nat)) (k : Nat) :
    List (String × Nat) :=
  party_votes.take k ++
    [("Others", ((party_votes.drop k).map (fun e => e.2)).sum)]

/-- The rows selected by `df[df['outcome'].str.lower() == 'win']`
(line 85). -/
def winnersOf (df : List Record) : List Record :=
  df.filter (fun r => r.outcome.toLower == "win")

/-- How many winning rows party `p` has. -/
def numWins (df : List Record) (p : String) : Nat :=
  ((winnersOf df).filter (fun r => r.candidate_party == p)).length

/-- `get_party_seats` (line 84): `winners['candidate_party']
.value_counts()` — the distinct winning parties in first-seen order,
each with its count of winning rows, sorted descending by count.  The
descending count sort is `sort_values` with its default quicksort,
which guarantees no order among tied counts; `insSort` fixes one, so
only tie-order-independent properties of this model reflect the
program. -/
def get_party_seats (df : List Record) : List (String × Nat) :=
  insSort valLeDesc
    ((firstSeen ((winnersOf df).map (fun r => r.candidate_party))).map
      (fun p => (p, numWins df p)))

/-- `get_top_candidates` (line 88):
`df.sort_values(by='candidate_votes', ascending=False).head(n)`.  The
sort is the default quicksort, which guarantees no order among records
tied on votes; `insSort` fixes one, so only tie-order-independent
properties of this model reflect the program. -/
def get_top_candidates (df : List Record) (n : Nat) : List Record :=
  (insSort recLeDesc df).take n

/-- One raw CSV row: each required column may be missing (NaN). -/
structure RawRow where
  candidate_name : Option String
  candidate_party : Option String
  candidate_votes : Option Nat
  outcome : Option String

/-- The input source as `pd.read_csv` classifies it: absent file
(`FileNotFoundError`), empty file (`EmptyDataError`), unparsable file
(`ParserError`), or a parsed table of rows. -/
inductive Source where
  | missing
  | emptyFile
  | malformed
  | parsed (rows : List RawRow)

/-- `df['candidate_party'] = df['candidate_party'].str.strip()`
(line 49), applied before the null-drop; a missing party stays
missing. -/
def stripParty (row : RawRow) : RawRow :=
  { row with candidate_party := row.candidate_party.map String.trim }

/-- `df.dropna(subset=required_columns)` (line 53), one row at a time:
a cleaned record when all four required fields are present, else the
row is dropped. -/
def cleanRow (row : RawRow) : Option Record :=
  match row.candidate_name, row.candidate_party, row.candidate_votes,
      row.outcome with
  | some n, some p, some v, some o => some ⟨n, p, v, o⟩
  | _, _, _, _ => none

/-- `load_and_clean_data` (lines 46-70): each `read_csv` failure is
caught and the process exits with status 1; otherwise the party field
is trimmed and incomplete rows are dropped. -/
def load_and_clean_data : Source → Except Nat (List Record)
  | .missing => .error 1
  | .emptyFile => .error 1
  | .malformed => .error 1
  | .parsed rows => .ok ((rows.map stripParty).filterMap cleanRow)

/-- The four derived views `main` computes (lines 167-170). -/
structure Outputs where
  party_votes : List (String × Nat)
  pie_data : List (String × Nat)
  party_seats : List (String × Nat)
  top_candidates : List Record
  deriving DecidableEq

/-- `main` (lines 164-191): load, then derive the four views; a load
failure aborts with its exit status before any aggregation happens. -/
def run_main (s : Source) : Except Nat Outputs :=
  match load_and_clean_data s with
  | .error c => .error c
  | .ok df =>
      .ok { party_votes := get_party_votes df
            pie_data := get_pie_data (get_party_votes df) TOP_N_PIE
            party_seats := get_party_seats df
            top_candidates := get_top_candidates df TOP_N_CANDIDATES }

/-- The process exit status: the error status on a failed load, `0`
(success) when `main` runs to completion. -/
def exit_status (s : Source) : Nat :=
  match run_main s with
  | .error c => c
  | .ok _ => 0

end Program

section Helpers

theorem valLeDesc_total (a b : String × Nat) :
    valLeDesc a b = true ∨ valLeDesc b a = true := by
  simp only [valLeDesc, decide_eq_true_eq]
  omega

theorem valLeDesc_trans (a b c : String × Nat) :
    valLeDesc a b = true → valLeDesc b c = true → valLeDesc a c = true := by
  simp only [valLeDesc, decide_eq_true_eq]
  omega

theorem recLeDesc_total (r s : Record) :
    recLeDesc r s = true ∨ recLeDesc s r = true := by
  simp only [recLeDesc, decide_eq_true_eq]
  omega

theorem recLeDesc_trans (r s t : Record) :
    recLeDesc r s = true → recLeDesc s t = true → recLeDesc r t = true := by
  simp only [recLeDesc, decide_eq_true_eq]
  omega

/-- Splitting a sum of mapped values along a boolean filter. -/
theorem sum_map_filter_split {α : Type*} (p : α → Bool) (f : α → Nat) :
    ∀ l : List α,
      ((l.filter p).map f).sum + ((l.filter (fun a => !(p a))).map f).sum
        = (l.map f).sum := by
  intro l
  induction l with
  | nil => rfl
  | cons x xs ih =>
    rcases Bool.eq_false_or_eq_true (p x) with h | h <;>
      simp [List.filter_cons, h, List.map_cons, List.sum_cons] <;>
      omega

/-- Summing a table's votes group by group: over any duplicate-free
list of keys covering every row's party, the per-key vote sums add up
to the whole table's votes. -/
theorem sum_over_keys :
    ∀ (ps : List String) (df : List Record), ps.Nodup →
      (∀ r ∈ df, r.candidate_party ∈ ps) →
      (ps.map (fun p => sumVotes df p)).sum
        = (df.map (fun r => r.candidate_votes)).sum := by
  intro ps
  induction ps with
  | nil =>
    intro df _ hcov
    have hdf : df = [] := by
      cases df with
      | nil => rfl
      | cons r rs => exact absurd (hcov r (List.mem_cons_self r rs)) (by simp)
    subst hdf
    rfl
  | cons p ps ih =>
    intro df hnd hcov
    rcases List.nodup_cons.mp hnd with ⟨hp, hnd'⟩
    have key : ∀ q ∈ ps,
        sumVotes df q
          = sumVotes (df.filter (fun r => !(r.candidate_party == p))) q := by
      intro q hq
      have hqp : q ≠ p := fun h => hp (h ▸ hq)
      have hfe : df.filter (fun r => r.candidate_party == q)
          = df.filter
              (fun r => r.candidate_party == q && !(r.candidate_party == p)) := by
        apply List.filter_congr
        intro r _
        by_cases h : r.candidate_party = q
        · simp [h, hqp]
        · simp [h]
      rw [sumVotes, sumVotes, List.filter_filter, ← hfe]
    have hcov' : ∀ r ∈ df.filter (fun r => !(r.candidate_party == p)),
        r.candidate_party ∈ ps := by
      intro r hr
      rcases List.mem_filter.mp hr with ⟨hrdf, hrp⟩
      have : r.candidate_party ≠ p := by simpa using hrp
      rcases List.mem_cons.mp (hcov r hrdf) with h | h
      · exact absurd h this
      · exact h
    have hmap : (ps.map (fun q => sumVotes df q)).sum
        = (ps.map (fun q =>
            sumVotes (df.filter (fun r => !(r.candidate_party == p))) q)).sum := by
      rw [List.map_congr_left key]
    have hsplit := sum_map_filter_split (fun r => r.candidate_party == p)
      (fun r => r.candidate_votes) df
    have hihs := ih (df.filter (fun r => !(r.candidate_party == p))) hnd' hcov'
    rw [List.map_cons, List.sum_cons, hmap, hihs]
    simp only [sumVotes]
    omega

end Helpers

section Claims

/-- C1: for every PartyVoteTotals input and every truncation size `k`
(the script uses `k = TOP_N_PIE`), the values of `get_pie_data`'s
output — the top-`k` entries plus the synthetic `"Others"` entry — sum
to the sum of all input values: truncation with a residual bucket loses
no votes. -/
theorem pie_sum_conservation (pv : List (String × Nat)) (k : Nat) :
    ((get_pie_data pv k).map (fun e => e.2)).sum
      = (pv.map (fun e => e.2)).sum := by
  simp [get_pie_data]

/-- C4: for any topK `k` at most the number of parties, `get_pie_data`
returns exactly `k + 1` entries; the `"Others"` entry is always
appended last; and when fewer than `k` parties exist the output is all
the parties followed by an `"Others"` entry of value `0`. -/
theorem pie_shape (pv : List (String × Nat)) (k : Nat) :
    (k ≤ pv.length → (get_pie_data pv k).length = k + 1) ∧
    (∃ top, get_pie_data pv k
        = top ++ [("Others", ((pv.drop k).map (fun e => e.2)).sum)]) ∧
    (pv.length < k → get_pie_data pv k = pv ++ [("Others", 0)]) := by
  refine ⟨?_, ⟨pv.take k, rfl⟩, ?_⟩
  · intro h
    simp only [get_pie_data, List.length_append, List.length_take,
      List.length_cons, List.length_nil]
    omega
  · intro h
    rw [get_pie_data, List.take_of_length_le (Nat.le_of_lt h),
      List.drop_eq_nil_of_le (Nat.le_of_lt h)]
    rfl

/-- C10: applied to an empty PartyVoteTotals, `get_pie_data` returns
a single `"Others"` entry of value `0` — length `1`, not `topK + 1`. -/
theorem pie_empty_input (k : Nat) :
    get_pie_data [] k = [("Others", 0)] ∧
    (get_pie_data [] TOP_N_PIE).length = 1 := by
  constructor
  · rw [get_pie_data]
    simp
  · rfl

/-- C5: the values of `get_party_votes` sum to the total votes of all
records (grouping by party, case-sensitive, loses no votes), and the
empty collection yields the empty result. -/
theorem party_votes_conservation (df : List Record) :
    ((get_party_votes df).map (fun e => e.2)).sum
      = (df.map (fun r => r.candidate_votes)).sum ∧
    (df = [] → get_party_votes df = []) := by
  constructor
  · rw [get_party_votes]
    have hperm :=
      (insSort_perm valLeDesc
        ((insSort strLe
            (firstSeen (df.map (fun r => r.candidate_party)))).map
          (fun p => (p, sumVotes df p)))).map (fun e : String × Nat => e.2)
    rw [hperm.sum_eq, List.map_map]
    have hnd : (insSort strLe
        (firstSeen (df.map (fun r => r.candidate_party)))).Nodup :=
      (insSort_perm _ _).nodup_iff.mpr
        (nodup_firstSeen (df.map (fun r => r.candidate_party)))
    have hcov : ∀ r ∈ df, r.candidate_party ∈
        insSort strLe (firstSeen (df.map (fun r => r.candidate_party))) := by
      intro r hr
      rw [(insSort_perm _ _).mem_iff, mem_firstSeen]
      exact List.mem_map_of_mem _ hr
    simpa using sum_over_keys _ df hnd hcov
  · intro h
    subst h
    rfl

/-- C6: `get_party_seats` contains exactly the parties with at least
one record whose case-normalized outcome is `"win"`, each mapped to its
count of winning records; no party appears with value `0` (a party with
no wins is absent, not zero). -/
theorem seats_mem_iff (df : List Record) (p : String) (c : Nat) :
    ((p, c) ∈ get_party_seats df) ↔ (0 < c ∧ c = numWins df p) := by
  rw [get_party_seats, (insSort_perm _ _).mem_iff, List.mem_map]
  constructor
  · rintro ⟨q, hq, heq⟩
    cases heq
    refine ⟨?_, rfl⟩
    rw [mem_firstSeen] at hq
    rcases List.mem_map.mp hq with ⟨r, hr, rfl⟩
    rw [numWins, List.length_pos_iff_exists_mem]
    exact ⟨r, List.mem_filter.mpr ⟨hr, by simp⟩⟩
  · rintro ⟨hc, rfl⟩
    refine ⟨p, ?_, rfl⟩
    rw [mem_firstSeen]
    rw [numWins, List.length_pos_iff_exists_mem] at hc
    rcases hc with ⟨r, hr⟩
    rcases List.mem_filter.mp hr with ⟨hrw, hrp⟩
    exact List.mem_map.mpr ⟨r, hrw, by simpa using hrp⟩

/-- C7: `get_top_candidates` returns exactly `min topN (length df)`
records, sorted non-increasing by votes received; when fewer than
`topN` records exist it returns all of them (a permutation of the whole
input), without padding or error. -/
theorem top_candidates_shape (df : List Record) (n : Nat) :
    (get_top_candidates df n).length = min n df.length ∧
    (get_top_candidates df n).Pairwise
      (fun r s => s.candidate_votes ≤ r.candidate_votes) ∧
    (df.length ≤ n → (get_top_candidates df n).Perm df) := by
  have hperm := insSort_perm recLeDesc df
  refine ⟨?_, ?_, ?_⟩
  · rw [get_top_candidates, List.length_take, hperm.length_eq]
  · have h2 := insSort_pairwise recLeDesc (fun _ _ => True)
      recLeDesc_total recLeDesc_trans
      ((pairwise_pair_sublist df).imp (fun _ => trivial))
    have h3 := h2.imp (fun h => by
      simpa only [recLeDesc, decide_eq_true_eq] using h.1)
    exact List.Pairwise.sublist (List.take_sublist n _) h3
  · intro h
    rw [get_top_candidates,
      List.take_of_length_le (by rw [hperm.length_eq]; exact h)]
    exact hperm

/-- The two-row table refuting C2's tie-break: party `"B"` is seen
first, both parties have 5 votes in total, yet the output lists `"A"`
first, because pandas `groupby` orders the group keys lexicographically
before the value sort. -/
def exdf : List Record :=
  [⟨"n1", "B", 5, "lose"⟩, ⟨"n2", "A", 5, "lose"⟩]

/-- C2, counterexample: on `exdf` the parties are first seen in the
order `B`, `A` and have equal summed votes, yet `get_party_votes`
returns `A` before `B`, so ties are not broken by first-seen party
order.  A two-element value sort lies inside numpy quicksort's
insertion-sort regime, where the program's sort is stable, so this
evaluation of the model coincides with the program's output. -/
theorem party_votes_ties_counterexample :
    get_party_votes exdf = [("A", 5), ("B", 5)] ∧
    firstSeen (exdf.map (fun r => r.candidate_party)) = ["B", "A"] ∧
    ¬ (get_party_votes exdf).Pairwise (fun a b => a.2 = b.2 →
        List.Sublist [a.1, b.1]
          (firstSeen (exdf.map (fun r => r.candidate_party)))) := by
  refine ⟨by decide, by decide, ?_⟩
  intro hpw
  rw [show get_party_votes exdf = [("A", 5), ("B", 5)] by decide,
    show firstSeen (exdf.map (fun r => r.candidate_party)) = ["B", "A"]
      by decide] at hpw
  have h2 : List.Sublist ["A", "B"] ["B", "A"] :=
    (List.pairwise_cons.mp hpw).1 ("B", 5) (List.mem_cons_self _ _) rfl
  exact absurd (h2.eq_of_length rfl) (by decide)

/-- C2, amended: `get_party_votes` is sorted non-increasing by summed
votes; the claimed first-seen tie-break is refuted by
`party_votes_ties_counterexample`, and the program guarantees no tie
order at all (the value sort is the default, unstable, quicksort), so
only the sortedness of the values remains.  This property holds of
every descending sort, whatever its tie order, so the model's choice of
tie order carries no weight here. -/
theorem party_votes_sorted_nonincreasing (df : List Record) :
    (get_party_votes df).Pairwise (fun a b => b.2 ≤ a.2) := by
  have h2 := insSort_pairwise valLeDesc (fun _ _ => True)
    valLeDesc_total valLeDesc_trans
    ((pairwise_pair_sublist
      ((insSort strLe (firstSeen (df.map (fun r => r.candidate_party)))).map
        (fun p => (p, sumVotes df p)))).imp (fun _ => trivial))
  rw [get_party_votes]
  exact h2.imp (fun h => by simpa only [valLeDesc, decide_eq_true_eq] using h.1)

/-- C9: when the input source is unreadable (absent), empty, or
unparsable, the run terminates with exit status 1 and produces no
outputs (the failure precedes all aggregation and rendering); on a
readable, parsable source, loading succeeds — trimming parties and
dropping incomplete rows — and the process exits with success. -/
theorem load_failure_aborts (s : Source) :
    ((s = Source.missing ∨ s = Source.emptyFile ∨ s = Source.malformed) →
      run_main s = Except.error 1 ∧ exit_status s = 1) ∧
    (∀ rows, s = Source.parsed rows →
      load_and_clean_data s
          = Except.ok ((rows.map stripParty).filterMap cleanRow) ∧
      exit_status s = 0 ∧
      ∃ out, run_main s = Except.ok out) := by
  constructor
  · rintro (rfl | rfl | rfl) <;> exact ⟨rfl, rfl⟩
  · rintro rows rfl
    exact ⟨rfl, rfl, _, rfl⟩

end Claims

end PakElect
